import Mathlib

/-
Shallow embedding of `samples/python/modules/samples/utils/value_utils.py`:
the three utilities `flatten_dict`, `value_match` and `value_contains`
over generic structured values (scalars, sequences, mappings).
-/

/-- Generic structured Python value: scalars (int, str, bool, None),
sequences (lists) and mappings (dicts, modelled as association lists with
string keys in insertion order; Python dicts always have unique keys). -/
inductive Value where
  | vint : Int → Value
  | vstr : String → Value
  | vbool : Bool → Value
  | vnone : Value
  | vlist : List Value → Value
  | vdict : List (String × Value) → Value

open Value

/-- A value is a Scalar when it is neither a Sequence nor a Mapping. -/
def isScalar : Value → Bool
  | vlist _ => false
  | vdict _ => false
  | _ => true

/-- Python `str.lower()` restricted to the ASCII fragment of the model. -/
def pyLower (s : String) : String :=
  String.mk (s.data.map Char.toLower)

/-- Python `s.replace(" ", "")`: remove every space character (U+0020 only). -/
def stripSpaces (s : String) : String :=
  String.mk (s.data.filter (fun c => !(c == ' ')))

/-- Python substring test helper: the first char list is an initial segment
of the second. -/
def leadsWith : List Char → List Char → Bool
  | [], _ => true
  | _ :: _, [] => false
  | a :: as, b :: bs => a == b && leadsWith as bs

/-- Python `a in b` for strings: `a` occurs contiguously inside `b`. -/
def occursIn : List Char → List Char → Bool
  | as, [] => as.isEmpty
  | as, b :: bs => leadsWith as (b :: bs) || occursIn as bs

mutual

/-- Python native equality `a == b` on generic values (structural, with the
Python quirk that `True == 1` and `False == 0`; dict equality compares key
sets and values pointwise, order-insensitively). -/
def pyEq : Value → Value → Bool
  | vint m, vint n => m == n
  | vstr s, vstr t => s == t
  | vbool a, vbool b => a == b
  | vbool a, vint n => (if a then (1 : Int) else 0) == n
  | vint n, vbool a => n == (if a then (1 : Int) else 0)
  | vnone, vnone => true
  | vlist xs, vlist ys => pyEqList xs ys
  | vdict xs, vdict ys => pyEqDictLe xs ys && pyEqDictLe ys xs
  | _, _ => false
termination_by a b => sizeOf a + sizeOf b

/-- Python list equality: same length and elementwise `==`. -/
def pyEqList : List Value → List Value → Bool
  | [], [] => true
  | x :: xs, y :: ys => pyEq x y && pyEqList xs ys
  | _, _ => false
termination_by a b => sizeOf a + sizeOf b

/-- One inclusion of Python dict equality: every binding of the first dict
is present in the second with an equal value. -/
def pyEqDictLe : List (String × Value) → List (String × Value) → Bool
  | [], _ => true
  | (k, v) :: xs, ys => pyEqFound k v ys && pyEqDictLe xs ys
termination_by a b => sizeOf a + sizeOf b

/-- Key `k` is bound in the dict and its value equals `v` under `==`. -/
def pyEqFound : String → Value → List (String × Value) → Bool
  | _, _, [] => false
  | k, v, (k2, w) :: ys => if k2 == k then pyEq v w else pyEqFound k v ys
termination_by _ v ys => sizeOf v + sizeOf ys

end

mutual

/-- Embedding of `value_match(value_a, value_b)`.  Faithful to the source
control flow: the string branch returns the lowercased comparison; the list
branch returns False early on a pairwise mismatch over `zip` but otherwise
falls through to `return value_a == value_b`; likewise the dict branch; all
other type combinations return native equality. -/
def value_match : Value → Value → Bool
  | vstr a, vstr b => pyLower a == pyLower b
  | vlist a, vlist b => matchZip a b && pyEq (vlist a) (vlist b)
  | vdict a, vdict b => matchKeys a b && pyEq (vdict a) (vdict b)
  | a, b => pyEq a b
termination_by a b => sizeOf a + sizeOf b

/-- The loop `for v, c in zip(value_a, value_b): if not value_match(v, c):
return False` — pairwise over the shorter length. -/
def matchZip : List Value → List Value → Bool
  | x :: xs, y :: ys => value_match x y && matchZip xs ys
  | _, _ => true
termination_by a b => sizeOf a + sizeOf b

/-- The loop `for key in value_a: if key not in value_b: return False;
if not value_match(value_a[key], value_b[key]): return False`. -/
def matchKeys : List (String × Value) → List (String × Value) → Bool
  | [], _ => true
  | (k, v) :: xs, ys => matchFound k v ys && matchKeys xs ys
termination_by a b => sizeOf a + sizeOf b

/-- Key `k` is bound in the dict and its value matches `v`. -/
def matchFound : String → Value → List (String × Value) → Bool
  | _, _, [] => false
  | k, v, (k2, w) :: ys => if k2 == k then value_match v w else matchFound k v ys
termination_by _ v ys => sizeOf v + sizeOf ys

end

mutual

/-- Embedding of `value_contains(value_a, value_b)`.  Faithful to the source
control flow: the string branch strips spaces, lowercases and tests
substring; the list branch returns False early when some element of `a` has
no containing counterpart in `b` but otherwise falls through to
`return value_match(value_a, value_b)`; likewise the dict branch; all other
type combinations return `value_match(a, b)`. -/
def value_contains : Value → Value → Bool
  | vstr a, vstr b =>
      occursIn (pyLower (stripSpaces a)).data (pyLower (stripSpaces b)).data
  | vlist a, vlist b => containsAll a b && value_match (vlist a) (vlist b)
  | vdict a, vdict b => containsKeys a b && value_match (vdict a) (vdict b)
  | a, b => value_match a b
termination_by a b => sizeOf a + sizeOf b

/-- The loop `for v in value_a: if not any(value_contains(v, c) for c in
value_b): return False`. -/
def containsAll : List Value → List Value → Bool
  | [], _ => true
  | v :: vs, b => containsAny v b && containsAll vs b
termination_by a b => sizeOf a + sizeOf b

/-- Python `any(value_contains(v, c) for c in value_b)`. -/
def containsAny : Value → List Value → Bool
  | _, [] => false
  | v, c :: cs => value_contains v c || containsAny v cs
termination_by v cs => sizeOf v + sizeOf cs

/-- The loop `for key in value_a: if key not in value_b: return False;
if not value_contains(value_a[key], value_b[key]): return False`. -/
def containsKeys : List (String × Value) → List (String × Value) → Bool
  | [], _ => true
  | (k, v) :: xs, ys => containsFound k v ys && containsKeys xs ys
termination_by a b => sizeOf a + sizeOf b

/-- Key `k` is bound in the dict and `v` is contained in its value. -/
def containsFound : String → Value → List (String × Value) → Bool
  | _, _, [] => false
  | k, v, (k2, w) :: ys => if k2 == k then value_contains v w else containsFound k v ys
termination_by _ v ys => sizeOf v + sizeOf ys

end

mutual

/-- Nesting size of a value, ignoring the sizes of key strings (used only
as a termination measure for the flattening recursion, whose synthetic keys
grow). -/
def vsize : Value → Nat
  | vlist xs => 1 + lsize xs
  | vdict xs => 1 + bsize xs
  | _ => 1
termination_by v => sizeOf v

/-- Sum of `vsize` over a list of values. -/
def lsize : List Value → Nat
  | [] => 0
  | x :: xs => 1 + vsize x + lsize xs
termination_by xs => sizeOf xs

/-- Sum of `vsize` over the values of a dict. -/
def bsize : List (String × Value) → Nat
  | [] => 0
  | (_, v) :: xs => 1 + vsize v + bsize xs
termination_by xs => sizeOf xs

end

mutual

/-- The `items` list built by `flatten_dict` before the final `dict(items)`
conversion: for each `(k, v)` of `data`, compute
`new_key = f"{parent_key}{sep}{k}" if parent_key else k`, recurse into dict
values with `parent_key = new_key`, enumerate list values, and append
`(new_key, v)` for scalars. -/
def flattenItems : List (String × Value) → String → String → List (String × Value)
  | [], _, _ => []
  | (k, v) :: rest, parent_key, sep =>
      let new_key := if parent_key ≠ "" then parent_key ++ sep ++ k else k
      (match v with
       | vdict d => flattenItems d new_key sep
       | vlist l => flattenSeq l new_key sep 0
       | other => [(new_key, other)]) ++ flattenItems rest parent_key sep
termination_by data _ _ => 2 * bsize data
decreasing_by
  all_goals simp [bsize, lsize, vsize]
  all_goals omega

/-- The loop `for i, item in enumerate(v): items.extend(flatten_dict(
{f"{new_key}_{i}": item}, '', sep=sep).items())` — note the literal `"_"`
in the synthetic key and the reset of `parent_key` to `''`. -/
def flattenSeq : List Value → String → String → Nat → List (String × Value)
  | [], _, _, _ => []
  | item :: rest, new_key, sep, i =>
      flattenItems [(new_key ++ "_" ++ toString i, item)] "" sep ++
        flattenSeq rest new_key sep (i + 1)
termination_by l _ _ _ => 2 * lsize l + 1
decreasing_by
  all_goals simp [bsize, lsize, vsize]
  all_goals omega

end

/-- Python dict item assignment `d[k] = v` on a unique-key association
list: replace the value in place when the key is present, else append. -/
def dictAssign : List (String × Value) → String → Value → List (String × Value)
  | [], k, v => [(k, v)]
  | (k2, w) :: d, k, v =>
      if k2 == k then (k2, v) :: d else (k2, w) :: dictAssign d k v

/-- Python `dict(items)`: build a dict by assigning the pairs in order
(later pairs with an equal key overwrite earlier values in place). -/
def pyDict (items : List (String × Value)) : List (String × Value) :=
  items.foldl (fun d kv => dictAssign d kv.1 kv.2) []

/-- Embedding of `flatten_dict(data, parent_key='', sep='_')`: the built
items converted by `dict(items)`. -/
def flatten_dict (data : List (String × Value))
    (parent_key : String := "") (sep : String := "_") : List (String × Value) :=
  pyDict (flattenItems data parent_key sep)

/-- Python `d[k]` / `k in d` on a unique-key association list. -/
def dictLookup : List (String × Value) → String → Option Value
  | [], _ => none
  | (k2, v) :: xs, k => if k2 == k then some v else dictLookup xs k

/-- The value of the last pair of `items` carrying key `k`, if any. -/
def lastLookup : List (String × Value) → String → Option Value
  | [], _ => none
  | (k2, v) :: xs, k =>
      match lastLookup xs k with
      | some w => some w
      | none => if k2 == k then some v else none

/-- Native equality implies match: whenever Python `a == b` holds, so does
`value_match(a, b)` (stated jointly for the four mutually recursive
functions). -/
theorem pyEq_imp_match :
    (∀ a b : Value, pyEq a b = true → value_match a b = true) ∧
    (∀ xs ys : List (String × Value), pyEqDictLe xs ys = true → matchKeys xs ys = true) ∧
    (∀ (k : String) (v : Value) (ys : List (String × Value)),
      pyEqFound k v ys = true → matchFound k v ys = true) ∧
    (∀ xs ys : List Value, pyEqList xs ys = true → matchZip xs ys = true) := by
  apply pyEq.mutual_induct
  case case1 => intro m n h; simpa [value_match, pyEq] using h
  case case2 =>
    intro s t h
    simp only [pyEq] at h
    simp only [value_match, beq_iff_eq] at h ⊢
    simp [h]
  case case3 => intro a b h; simpa [value_match, pyEq] using h
  case case4 => intro a n h; simpa [value_match, pyEq] using h
  case case5 => intro n a h; simpa [value_match, pyEq] using h
  case case6 => intro h; simp [value_match, pyEq]
  case case7 =>
    intro xs ys ih h
    simp only [pyEq] at h
    simp only [value_match, Bool.and_eq_true]
    exact ⟨ih h, by simp [pyEq, h]⟩
  case case8 =>
    intro xs ys ih1 ih2 h
    simp only [pyEq, Bool.and_eq_true] at h
    simp only [value_match, Bool.and_eq_true]
    exact ⟨ih1 h.1, by simp [pyEq, h.1, h.2]⟩
  case case9 =>
    intro a b h1 h2 h3 h4 h5 h6 h7 h8 hEq
    cases a <;> cases b <;>
      first
        | exact (h1 _ _ rfl rfl).elim
        | exact (h2 _ _ rfl rfl).elim
        | exact (h3 _ _ rfl rfl).elim
        | exact (h4 _ _ rfl rfl).elim
        | exact (h5 _ _ rfl rfl).elim
        | exact (h6 rfl rfl).elim
        | exact (h7 _ _ rfl rfl).elim
        | exact (h8 _ _ rfl rfl).elim
        | simpa [value_match] using hEq
  case case10 => intro ys h; simp [matchKeys]
  case case11 =>
    intro k v xs ys ihF ihK h
    simp only [pyEqDictLe, Bool.and_eq_true] at h
    simp only [matchKeys, Bool.and_eq_true]
    exact ⟨ihF h.1, ihK h.2⟩
  case case12 => intro k v h; simp [pyEqFound] at h
  case case13 =>
    intro k v k2 w ys hk ih h
    simp only [pyEqFound, hk, if_true] at h
    simp only [matchFound, hk, if_true]
    exact ih h
  case case14 =>
    intro k v k2 w ys hk ih h
    simp only [pyEqFound, hk, if_false] at h
    simp only [matchFound, hk, if_false]
    exact ih h
  case case15 => intro h; simp [matchZip]
  case case16 =>
    intro x xs y ys ih1 ih2 h
    simp only [pyEqList, Bool.and_eq_true] at h
    simp only [matchZip, Bool.and_eq_true]
    exact ⟨ih1 h.1, ih2 h.2⟩
  case case17 =>
    intro xs ys h1 h2 hEq
    cases xs <;> cases ys <;>
      first
        | exact (h1 rfl rfl).elim
        | exact (h2 _ _ _ _ rfl rfl).elim
        | simp [matchZip]

/-- On two Sequences, `value_match` coincides with Python native equality:
the pairwise loop can only refute, and the final `return value_a == value_b`
decides the rest. -/
theorem value_match_vlist (xs ys : List Value) :
    value_match (Value.vlist xs) (Value.vlist ys) = pyEq (Value.vlist xs) (Value.vlist ys) := by
  cases h : pyEq (Value.vlist xs) (Value.vlist ys) with
  | true =>
      have hz : matchZip xs ys = true := by
        simp only [pyEq] at h
        exact pyEq_imp_match.2.2.2 xs ys h
      simp [value_match, hz, h]
  | false => simp [value_match, h]

/-- On two Mappings, `value_match` coincides with Python native equality:
the key loop can only refute, and the final `return value_a == value_b`
decides the rest. -/
theorem value_match_vdict (xs ys : List (String × Value)) :
    value_match (Value.vdict xs) (Value.vdict ys) = pyEq (Value.vdict xs) (Value.vdict ys) := by
  cases h : pyEq (Value.vdict xs) (Value.vdict ys) with
  | true =>
      have hk : matchKeys xs ys = true := by
        simp only [pyEq, Bool.and_eq_true] at h
        exact pyEq_imp_match.2.1 xs ys h.1
      simp [value_match, hk, h]
  | false => simp [value_match, h]

/-- A character list is an initial segment of itself. -/
theorem leadsWith_refl (as : List Char) : leadsWith as as = true := by
  induction as with
  | nil => simp [leadsWith]
  | cons a as ih => simp [leadsWith, ih]

/-- A character list occurs inside itself. -/
theorem occursIn_refl (as : List Char) : occursIn as as = true := by
  cases as with
  | nil => simp [occursIn]
  | cons a as => simp [occursIn, leadsWith_refl]

/-- Elementwise Python list equality gives, for every element of the first
list, an equal element of the second. -/
theorem pyEqList_pointwise (xs : List Value) :
    ∀ ys : List Value, pyEqList xs ys = true → ∀ v ∈ xs, ∃ c ∈ ys, pyEq v c = true := by
  induction xs with
  | nil => intro ys h v hv; simp at hv
  | cons x xs ih =>
      intro ys h v hv
      cases ys with
      | nil => simp [pyEqList] at h
      | cons y ys =>
          simp only [pyEqList, Bool.and_eq_true] at h
          rcases List.mem_cons.mp hv with hvx | hvxs
          · exact ⟨y, List.mem_cons_self y ys, hvx ▸ h.1⟩
          · obtain ⟨c, hc, hpc⟩ := ih ys h.2 v hvxs
            exact ⟨c, List.mem_cons_of_mem y hc, hpc⟩

/-- Native equality implies containment: whenever Python `a == b` holds, so
does `value_contains(a, b)` (stated jointly for the five mutually recursive
functions). -/
theorem pyEq_imp_contains :
    (∀ a b : Value, pyEq a b = true → value_contains a b = true) ∧
    (∀ xs ys : List (String × Value), pyEqDictLe xs ys = true → containsKeys xs ys = true) ∧
    (∀ (k : String) (v : Value) (ys : List (String × Value)),
      pyEqFound k v ys = true → containsFound k v ys = true) ∧
    (∀ xs ys : List Value, (∀ v ∈ xs, ∃ c ∈ ys, pyEq v c = true) → containsAll xs ys = true) ∧
    (∀ (v : Value) (cs : List Value), (∃ c ∈ cs, pyEq v c = true) → containsAny v cs = true) := by
  apply value_contains.mutual_induct
  case case1 =>
    intro s t h
    simp only [pyEq, beq_iff_eq] at h
    subst h
    simp [value_contains, occursIn_refl]
  case case2 =>
    intro xs ys ih h
    simp only [pyEq] at h
    simp only [value_contains, Bool.and_eq_true]
    refine ⟨ih (pyEqList_pointwise xs ys h), ?_⟩
    rw [value_match_vlist]
    simp [pyEq, h]
  case case3 =>
    intro xs ys ih h
    simp only [pyEq, Bool.and_eq_true] at h
    simp only [value_contains, Bool.and_eq_true]
    refine ⟨ih h.1, ?_⟩
    rw [value_match_vdict]
    simp [pyEq, h.1, h.2]
  case case4 =>
    intro a b h1 h2 h3 hEq
    cases a <;> cases b <;>
      first
        | exact (h1 _ _ rfl rfl).elim
        | exact (h2 _ _ rfl rfl).elim
        | exact (h3 _ _ rfl rfl).elim
        | simpa [value_contains] using pyEq_imp_match.1 _ _ hEq
  case case5 => intro ys h; simp [containsKeys]
  case case6 =>
    intro k v xs ys ihF ihK h
    simp only [pyEqDictLe, Bool.and_eq_true] at h
    simp only [containsKeys, Bool.and_eq_true]
    exact ⟨ihF h.1, ihK h.2⟩
  case case7 => intro k v h; simp [pyEqFound] at h
  case case8 =>
    intro k v k2 w ys hk ih h
    simp only [pyEqFound, hk, if_true] at h
    simp only [containsFound, hk, if_true]
    exact ih h
  case case9 =>
    intro k v k2 w ys hk ih h
    simp only [pyEqFound, hk, if_false] at h
    simp only [containsFound, hk, if_false]
    exact ih h
  case case10 => intro ys h; simp [containsAll]
  case case11 =>
    intro v vs b ihAny ihAll h
    simp only [containsAll, Bool.and_eq_true]
    refine ⟨ihAny (h v (List.mem_cons_self v vs)), ?_⟩
    exact ihAll (fun u hu => h u (List.mem_cons_of_mem v hu))
  case case12 => intro x h; simp at h
  case case13 =>
    intro v c cs ihVc ihAny h
    obtain ⟨c1, hc1, hp⟩ := h
    simp only [containsAny, Bool.or_eq_true]
    rcases List.mem_cons.mp hc1 with hc | hc
    · exact Or.inl (ihVc (hc ▸ hp))
    · exact Or.inr (ihAny ⟨c1, hc, hp⟩)

/-- On two Sequences, `value_contains` coincides with Python native
equality: the existential loop can only refute, and the final
`return value_match(value_a, value_b)` then behaves as native equality on
lists. -/
theorem value_contains_vlist (xs ys : List Value) :
    value_contains (Value.vlist xs) (Value.vlist ys) = pyEq (Value.vlist xs) (Value.vlist ys) := by
  cases h : pyEq (Value.vlist xs) (Value.vlist ys) with
  | true =>
      have hall : containsAll xs ys = true := by
        simp only [pyEq] at h
        exact pyEq_imp_contains.2.2.2.1 xs ys (pyEqList_pointwise xs ys h)
      simp [value_contains, hall, value_match_vlist, h]
  | false => simp [value_contains, value_match_vlist, h]

/-- Unfolding: flattening an empty Mapping yields no items. -/
theorem flattenItems_nil (pk sep : String) : flattenItems [] pk sep = [] := by
  rw [flattenItems.eq_def]

/-- Unfolding: a Mapping value recurses with the composite key as parent. -/
theorem flattenItems_cons_dict (k : String) (d rest : List (String × Value)) (pk sep : String) :
    flattenItems ((k, Value.vdict d) :: rest) pk sep =
      flattenItems d (if pk ≠ "" then pk ++ sep ++ k else k) sep ++ flattenItems rest pk sep := by
  rw [flattenItems.eq_def]

/-- Unfolding: a Sequence value is enumerated from index 0. -/
theorem flattenItems_cons_list (k : String) (l : List Value)
    (rest : List (String × Value)) (pk sep : String) :
    flattenItems ((k, Value.vlist l) :: rest) pk sep =
      flattenSeq l (if pk ≠ "" then pk ++ sep ++ k else k) sep 0 ++ flattenItems rest pk sep := by
  rw [flattenItems.eq_def]

/-- Unfolding: a Scalar value is emitted under the composite key. -/
theorem flattenItems_cons_scalar (k : String) (v : Value)
    (rest : List (String × Value)) (pk sep : String) (h : isScalar v = true) :
    flattenItems ((k, v) :: rest) pk sep =
      ((if pk ≠ "" then pk ++ sep ++ k else k), v) :: flattenItems rest pk sep := by
  cases v <;> first
    | exact Bool.noConfusion h
    | (rw [flattenItems.eq_def]; rfl)

/-- Unfolding: enumerating an empty Sequence yields no items. -/
theorem flattenSeq_nil (nk sep : String) (i : Nat) : flattenSeq [] nk sep i = [] := by
  rw [flattenSeq.eq_def]

/-- Unfolding: each Sequence element is flattened as a singleton Mapping
under the synthetic key, with an empty parent key. -/
theorem flattenSeq_cons (item : Value) (rest : List Value) (nk sep : String) (i : Nat) :
    flattenSeq (item :: rest) nk sep i =
      flattenItems [(nk ++ "_" ++ toString i, item)] "" sep ++ flattenSeq rest nk sep (i + 1) := by
  rw [flattenSeq.eq_def]

/-- Every pair the flattening loop emits carries a Scalar value (jointly
for the dict walk and the sequence enumeration). -/
theorem flattenItems_scalar :
    (∀ (data : List (String × Value)) (pk sep : String),
      ∀ kv ∈ flattenItems data pk sep, isScalar kv.2 = true) ∧
    (∀ (l : List Value) (nk sep : String) (i : Nat),
      ∀ kv ∈ flattenSeq l nk sep i, isScalar kv.2 = true) := by
  apply flattenItems.mutual_induct
  case case1 =>
    intro pk sep kv hkv
    rw [flattenItems_nil] at hkv
    exact absurd hkv (List.not_mem_nil kv)
  case case2 =>
    intro k v rest pk sep nk ihv ihrest kv hkv
    cases v with
    | vdict d =>
        rw [flattenItems_cons_dict, List.mem_append] at hkv
        rcases hkv with h | h
        · exact ihv kv h
        · exact ihrest kv h
    | vlist l =>
        rw [flattenItems_cons_list, List.mem_append] at hkv
        rcases hkv with h | h
        · exact ihv kv h
        · exact ihrest kv h
    | vint m =>
        rw [flattenItems_cons_scalar k (vint m) rest pk sep rfl, List.mem_cons] at hkv
        rcases hkv with h | h
        · rw [h]; rfl
        · exact ihrest kv h
    | vstr s =>
        rw [flattenItems_cons_scalar k (vstr s) rest pk sep rfl, List.mem_cons] at hkv
        rcases hkv with h | h
        · rw [h]; rfl
        · exact ihrest kv h
    | vbool b =>
        rw [flattenItems_cons_scalar k (vbool b) rest pk sep rfl, List.mem_cons] at hkv
        rcases hkv with h | h
        · rw [h]; rfl
        · exact ihrest kv h
    | vnone =>
        rw [flattenItems_cons_scalar k vnone rest pk sep rfl, List.mem_cons] at hkv
        rcases hkv with h | h
        · rw [h]; rfl
        · exact ihrest kv h
  case case3 =>
    intro nk sep i kv hkv
    rw [flattenSeq_nil] at hkv
    exact absurd hkv (List.not_mem_nil kv)
  case case4 =>
    intro item rest nk sep i ih1 ih2 kv hkv
    rw [flattenSeq_cons, List.mem_append] at hkv
    rcases hkv with h | h
    · exact ih1 kv h
    · exact ih2 kv h

/-- A pair of `dictAssign d k v` is a pair of `d` or carries the newly
assigned value. -/
theorem dictAssign_mem (d : List (String × Value)) (k : String) (v : Value) :
    ∀ kv ∈ dictAssign d k v, kv ∈ d ∨ kv.2 = v := by
  induction d with
  | nil =>
      intro kv hkv
      simp only [dictAssign, List.mem_singleton] at hkv
      exact Or.inr (by rw [hkv])
  | cons p rest ih =>
      obtain ⟨k2, w⟩ := p
      intro kv hkv
      cases hk : (k2 == k) with
      | true =>
          simp only [dictAssign, hk, if_true] at hkv
          rcases List.mem_cons.mp hkv with h | h
          · exact Or.inr (by rw [h])
          · exact Or.inl (List.mem_cons_of_mem _ h)
      | false =>
          simp only [dictAssign, hk, if_false] at hkv
          rcases List.mem_cons.mp hkv with h | h
          · exact Or.inl (by rw [h]; exact List.mem_cons_self _ _)
          · rcases ih kv h with h2 | h2
            · exact Or.inl (List.mem_cons_of_mem _ h2)
            · exact Or.inr h2

/-- Every value of the dict built from `items` is a value of `items`
(stated with an accumulator for the fold). -/
theorem pyDict_mem_aux (items : List (String × Value)) :
    ∀ acc : List (String × Value),
      ∀ kv ∈ items.foldl (fun d p => dictAssign d p.1 p.2) acc,
        kv ∈ acc ∨ kv.2 ∈ items.map Prod.snd := by
  induction items with
  | nil => intro acc kv hkv; exact Or.inl hkv
  | cons p rest ih =>
      obtain ⟨k1, v1⟩ := p
      intro acc kv hkv
      rw [List.foldl_cons] at hkv
      rcases ih (dictAssign acc k1 v1) kv hkv with h | h
      · rcases dictAssign_mem acc k1 v1 kv h with h2 | h2
        · exact Or.inl h2
        · exact Or.inr (by rw [List.map_cons, h2]; exact List.mem_cons_self v1 _)
      · exact Or.inr (by rw [List.map_cons]; exact List.mem_cons_of_mem v1 h)

/-- Claim C1: for every finite acyclic Mapping input (any parent key and
any separator), every value in the Mapping returned by flatten_dict is a
Scalar, never a Sequence or a Mapping — the output is a depth-1 Mapping. -/
theorem flatten_dict_values_scalar (data : List (String × Value)) (pk sep : String) :
    (flatten_dict data pk sep).all (fun kv => isScalar kv.2) = true := by
  rw [List.all_eq_true]
  intro kv hkv
  rcases pyDict_mem_aux (flattenItems data pk sep) [] kv hkv with h | h
  · exact absurd h (List.not_mem_nil kv)
  · obtain ⟨kv2, hkv2, hsnd⟩ := List.mem_map.mp h
    show isScalar kv.2 = true
    rw [← hsnd]
    exact flattenItems_scalar.1 data pk sep kv2 hkv2

/-- Looking up the just-assigned key returns the just-assigned value. -/
theorem dictLookup_dictAssign_self (d : List (String × Value)) (k : String) (v : Value) :
    dictLookup (dictAssign d k v) k = some v := by
  induction d with
  | nil => simp [dictAssign, dictLookup]
  | cons p rest ih =>
      obtain ⟨k2, w⟩ := p
      cases hk : (k2 == k) with
      | true => simp [dictAssign, hk, dictLookup]
      | false => simp [dictAssign, hk, dictLookup, ih]

/-- Assigning key `k` leaves the lookup of any other key unchanged. -/
theorem dictLookup_dictAssign_ne (d : List (String × Value)) (k kq : String) (v : Value)
    (h : (k == kq) = false) :
    dictLookup (dictAssign d k v) kq = dictLookup d kq := by
  induction d with
  | nil => simp [dictAssign, dictLookup, h]
  | cons p rest ih =>
      obtain ⟨k2, w⟩ := p
      cases hk : (k2 == k) with
      | true =>
          have hk2 : k2 = k := by simpa using hk
          subst hk2
          simp [dictAssign, dictLookup, h]
      | false => simp [dictAssign, hk, dictLookup, ih]

/-- Lookup in the dict built from `items`: the last pair of `items` with
the queried key wins; keys absent from `items` fall back to the
accumulator. -/
theorem pyDict_lookup_aux (items : List (String × Value)) :
    ∀ (acc : List (String × Value)) (k : String),
      dictLookup (items.foldl (fun d p => dictAssign d p.1 p.2) acc) k =
        (match lastLookup items k with
         | some v => some v
         | none => dictLookup acc k) := by
  induction items with
  | nil => intro acc k; simp [lastLookup]
  | cons p rest ih =>
      obtain ⟨k1, v1⟩ := p
      intro acc k
      rw [List.foldl_cons, ih]
      cases hl : lastLookup rest k with
      | some w => simp [lastLookup, hl]
      | none =>
          simp only [lastLookup, hl]
          cases hk : (k1 == k) with
          | true =>
              have hk1 : k1 = k := by simpa using hk
              subst hk1
              simp [dictLookup_dictAssign_self]
          | false => simp [hk, dictLookup_dictAssign_ne acc k1 k v1 hk]

/-- The keys of `dictAssign d k v` are the keys of `d` possibly with `k`. -/
theorem dictAssign_fst_mem (d : List (String × Value)) (k : String) (v : Value) :
    ∀ kq ∈ (dictAssign d k v).map Prod.fst, kq ∈ d.map Prod.fst ∨ kq = k := by
  induction d with
  | nil =>
      intro kq hkq
      simp only [dictAssign, List.map_singleton, List.mem_singleton] at hkq
      exact Or.inr hkq
  | cons p rest ih =>
      obtain ⟨k2, w⟩ := p
      intro kq hkq
      cases hk : (k2 == k) with
      | true =>
          simp only [dictAssign, hk, if_true] at hkq
          rw [List.map_cons, List.mem_cons] at hkq
          rcases hkq with h | h
          · exact Or.inl (by rw [List.map_cons, List.mem_cons]; exact Or.inl h)
          · exact Or.inl (by rw [List.map_cons, List.mem_cons]; exact Or.inr h)
      | false =>
          simp only [dictAssign, hk] at hkq
          rw [if_neg (by simp)] at hkq
          rw [List.map_cons, List.mem_cons] at hkq
          rcases hkq with h | h
          · exact Or.inl (by rw [List.map_cons, List.mem_cons]; exact Or.inl h)
          · rcases ih kq h with h2 | h2
            · exact Or.inl (by rw [List.map_cons, List.mem_cons]; exact Or.inr h2)
            · exact Or.inr h2

/-- Assignment preserves key uniqueness. -/
theorem dictAssign_fst_nodup (d : List (String × Value)) (k : String) (v : Value)
    (h : (d.map Prod.fst).Nodup) : ((dictAssign d k v).map Prod.fst).Nodup := by
  induction d with
  | nil => simp [dictAssign]
  | cons p rest ih =>
      obtain ⟨k2, w⟩ := p
      rw [List.map_cons, List.nodup_cons] at h
      cases hk : (k2 == k) with
      | true =>
          simp only [dictAssign, hk, if_true, List.map_cons, List.nodup_cons]
          exact h
      | false =>
          simp only [dictAssign, hk]
          rw [if_neg (by simp), List.map_cons, List.nodup_cons]
          refine ⟨?_, ih h.2⟩
          intro hmem
          rcases dictAssign_fst_mem rest k v k2 hmem with h2 | h2
          · exact h.1 h2
          · rw [h2] at hk
            simp at hk

/-- The fold building a Python dict preserves key uniqueness. -/
theorem pyDict_nodup_aux (items : List (String × Value)) :
    ∀ acc : List (String × Value), (acc.map Prod.fst).Nodup →
      ((items.foldl (fun d p => dictAssign d p.1 p.2) acc).map Prod.fst).Nodup := by
  induction items with
  | nil => intro acc h; exact h
  | cons p rest ih =>
      obtain ⟨k1, v1⟩ := p
      intro acc h
      rw [List.foldl_cons]
      exact ih (dictAssign acc k1 v1) (dictAssign_fst_nodup acc k1 v1 h)

/-- Claim C7: when two distinct input paths of flatten_dict produce the
same composite key, the output contains exactly one entry for that key
(output keys are pairwise distinct) and its value is the one produced
later in iteration order: looking up any key in the output returns the
value of the last produced item carrying that key, with no error;
illustrated on the colliding input {"a": {"b": 1}, "a_b": 2}. -/
theorem flatten_dict_last_write_wins :
    (∀ (data : List (String × Value)) (pk sep k : String),
      dictLookup (flatten_dict data pk sep) k = lastLookup (flattenItems data pk sep) k) ∧
    (∀ (data : List (String × Value)) (pk sep : String),
      ((flatten_dict data pk sep).map Prod.fst).Nodup) ∧
    flatten_dict [("a", Value.vdict [("b", Value.vint 1)]), ("a_b", Value.vint 2)] "" "_" =
      [("a_b", Value.vint 2)] := by
  refine ⟨?_, ?_, ?_⟩
  · intro data pk sep k
    show dictLookup ((flattenItems data pk sep).foldl (fun d p => dictAssign d p.1 p.2) []) k = _
    rw [pyDict_lookup_aux]
    cases lastLookup (flattenItems data pk sep) k with
    | some w => rfl
    | none => simp [dictLookup]
  · intro data pk sep
    exact pyDict_nodup_aux (flattenItems data pk sep) [] (by simp)
  · simp +decide [flatten_dict, flattenItems, flattenSeq, pyDict, dictAssign]

/-- Claim C2 (counterexample): value_match([1, 2, 3], [1, 2]) returns
false on the code, not true as claimed: the pairwise zip loop passes but
the function then falls through to native equality of the two lists,
which fails. -/
theorem value_match_seq_cex :
    value_match (vlist [vint 1, vint 2, vint 3]) (vlist [vint 1, vint 2]) = false := by
  simp [value_match, matchZip, pyEq, pyEqList]

/-- Claim C2 (amended): on two Sequences the pairwise comparison over the
shorter length can only refute; when every pair matches, value_match still
returns the native equality of the two whole lists, so on Sequences it
coincides with native equality; in particular value_match([1, 2, 3],
[1, 2]) and value_match([1, 2], [1, 3]) are both false. -/
theorem value_match_seq_amended :
    (∀ xs ys : List Value,
      value_match (vlist xs) (vlist ys) = pyEq (vlist xs) (vlist ys)) ∧
    value_match (vlist [vint 1, vint 2, vint 3]) (vlist [vint 1, vint 2]) = false ∧
    value_match (vlist [vint 1, vint 2]) (vlist [vint 1, vint 3]) = false := by
  refine ⟨value_match_vlist, ?_, ?_⟩ <;> simp [value_match, matchZip, pyEq, pyEqList]

/-- Claim C3 (counterexample): value_match({"a": 1}, {"a": 1, "b": 2})
returns false on the code, not true as claimed: the key loop over the
first Mapping passes but the function then falls through to native
equality of the two Mappings, which fails on the extra key "b". -/
theorem value_match_mapping_cex :
    value_match (vdict [("a", vint 1)]) (vdict [("a", vint 1), ("b", vint 2)]) = false := by
  simp [value_match, matchKeys, matchFound, pyEq, pyEqList, pyEqDictLe, pyEqFound]

/-- Claim C3 (amended): on two Mappings the key loop over the first
argument can only refute; when it passes, value_match still returns the
native equality of the two whole Mappings, so keys present only in the
second argument are not ignored and value_match on Mappings coincides with
native equality; in particular value_match({"a": 1}, {"a": 1, "b": 2}) and
value_match({"a": 1, "b": 2}, {"a": 1}) are both false. -/
theorem value_match_mapping_amended :
    (∀ xs ys : List (String × Value),
      value_match (vdict xs) (vdict ys) = pyEq (vdict xs) (vdict ys)) ∧
    value_match (vdict [("a", vint 1)]) (vdict [("a", vint 1), ("b", vint 2)]) = false ∧
    value_match (vdict [("a", vint 1), ("b", vint 2)]) (vdict [("a", vint 1)]) = false := by
  refine ⟨value_match_vdict, ?_, ?_⟩ <;>
    simp [value_match, matchKeys, matchFound, pyEq, pyEqList, pyEqDictLe, pyEqFound]

/-- Claim C4 (counterexample): value_contains([1], [2, 1, 3]) returns
false on the code, not true as claimed: the existential loop passes but
the function then falls through to value_match of the two lists, which is
native equality and fails. -/
theorem value_contains_seq_cex :
    value_contains (vlist [vint 1]) (vlist [vint 2, vint 1, vint 3]) = false := by
  simp [value_contains, containsAll, containsAny, value_match, matchZip, pyEq, pyEqList]

/-- Claim C4 (amended): on two Sequences the existential per-element loop
can only refute; when it passes, value_contains still falls through to
value_match of the two lists, which is native equality there, so on
Sequences value_contains coincides with native equality; in particular
value_contains([1], [2, 1, 3]) and value_contains([1, 4], [1, 2]) are both
false. -/
theorem value_contains_seq_amended :
    (∀ xs ys : List Value,
      value_contains (vlist xs) (vlist ys) = pyEq (vlist xs) (vlist ys)) ∧
    value_contains (vlist [vint 1]) (vlist [vint 2, vint 1, vint 3]) = false ∧
    value_contains (vlist [vint 1, vint 4]) (vlist [vint 1, vint 2]) = false := by
  refine ⟨value_contains_vlist, ?_, ?_⟩ <;>
    simp [value_contains, containsAll, containsAny, value_match, matchZip, pyEq, pyEqList]

/-- Claim C5 (counterexample): flattening {"a": [1]} with separator "."
produces the key "a_0", not "a.0": the synthetic key for a sequence
element is joined with a hard-coded "_", so the configured separator is
not applied between the composite key and the index. -/
theorem flatten_sep_cex :
    flatten_dict [("a", vlist [vint 1])] "" "." = [("a_0", vint 1)] ∧
    dictLookup (flatten_dict [("a", vlist [vint 1])] "" ".") "a.0" = none := by
  constructor <;>
    simp +decide [flatten_dict, flattenItems, flattenSeq, pyDict, dictAssign,
      dictLookup, show toString (0:Nat) = "0" from rfl]

/-- Claim C5 (amended): for every separator sep, when flatten_dict meets a
Sequence value it builds the synthetic key for the element at index i by
joining the composite key and i with the literal character "_" regardless
of sep: flattening {"a": [v, w]} with any separator yields exactly the
keys "a_0" and "a_1". -/
theorem flatten_seq_key_underscore (sep : String) (v w : Value)
    (hv : isScalar v = true) (hw : isScalar w = true) :
    flatten_dict [("a", vlist [v, w])] "" sep = [("a_0", v), ("a_1", w)] := by
  cases v <;> cases w <;>
    first
      | exact Bool.noConfusion hv
      | exact Bool.noConfusion hw
      | simp +decide [flatten_dict, flattenItems, flattenSeq, pyDict, dictAssign,
          show toString (0:Nat) = "0" from rfl, show toString (1:Nat) = "1" from rfl]

/-- Witness for the amended C5 at concrete scalar values and sep=".". -/
theorem flatten_seq_key_underscore_witness :
    flatten_dict [("a", vlist [vint 7, vstr "x"])] "" "." =
      [("a_0", vint 7), ("a_1", vstr "x")] :=
  flatten_seq_key_underscore "." (vint 7) (vstr "x") rfl rfl

/-- Claim C8: value_contains is reflexive on Scalars and strings: every
Scalar value (string, number, boolean or null) contains itself. -/
theorem value_contains_refl_scalar (x : Value) (h : isScalar x = true) :
    value_contains x x = true := by
  cases x with
  | vstr s => simp [value_contains, occursIn_refl]
  | vint m => simp [value_contains, value_match, pyEq]
  | vbool b => simp [value_contains, value_match, pyEq]
  | vnone => simp [value_contains, value_match, pyEq]
  | vlist l => exact Bool.noConfusion h
  | vdict d => exact Bool.noConfusion h

/-- Witness for C8 at a concrete string and a concrete number. -/
theorem value_contains_refl_scalar_witness :
    value_contains (vstr "A b") (vstr "A b") = true ∧
    value_contains (vint 5) (vint 5) = true :=
  ⟨value_contains_refl_scalar (vstr "A b") rfl,
   value_contains_refl_scalar (vint 5) rfl⟩

/-- The transformation the spec attributes to the containment stage,
following the spec words "remove all whitespace from each": every
whitespace character is removed, not only spaces (for comparison with the
code's stripSpaces). -/
def specStripWhitespace (s : String) : String :=
  String.mk (s.data.filter (fun c => !(c.isWhitespace)))

/-- The empty character list occurs in every character list. -/
theorem occursIn_nil (bs : List Char) : occursIn [] bs = true := by
  cases bs with
  | nil => rfl
  | cons b bs => simp [occursIn, leadsWith]

/-- Claim C10 (counterexample): the tab string "\t" consists only of
whitespace, so its whitespace-stripped form is empty, yet
value_contains("\t", "xy") returns false on the code: only the space
character U+0020 is removed, and "\t" is not a substring of "xy". -/
theorem value_contains_empty_needle_cex :
    specStripWhitespace "\t" = "" ∧
    value_contains (vstr "\t") (vstr "xy") = false := by
  constructor
  · decide
  · simp +decide [value_contains, stripSpaces, pyLower, occursIn, leadsWith]

/-- Claim C10 (amended): for every string b, value_contains(a, b) returns
true whenever a is a string whose space-stripped form is empty (the empty
string, or a string of only space characters): an empty needle is
contained in every string haystack. -/
theorem value_contains_empty_needle (a b : String) (h : stripSpaces a = "") :
    value_contains (vstr a) (vstr b) = true := by
  have hd : (pyLower (stripSpaces a)).data = [] := by rw [h]; rfl
  simp only [value_contains, hd]
  exact occursIn_nil _

/-- Witness for the amended C10 at a two-space needle. -/
theorem value_contains_empty_needle_witness :
    value_contains (vstr "  ") (vstr "xy") = true :=
  value_contains_empty_needle "  " "xy" (by decide)

/-- leadsWith tests exactly initial-segment decomposition. -/
theorem leadsWith_iff (as : List Char) :
    ∀ bs : List Char, leadsWith as bs = true ↔ ∃ t, bs = as ++ t := by
  induction as with
  | nil =>
      intro bs
      simp [leadsWith]
  | cons a as ih =>
      intro bs
      cases bs with
      | nil =>
          simp only [leadsWith]
          constructor
          · intro h; exact Bool.noConfusion h
          · rintro ⟨t, ht⟩; exact absurd ht (by simp)
      | cons b bs =>
          simp only [leadsWith, Bool.and_eq_true, beq_iff_eq]
          constructor
          · rintro ⟨hab, h⟩
            obtain ⟨t, ht⟩ := (ih bs).mp h
            exact ⟨t, by rw [ht, hab, List.cons_append]⟩
          · rintro ⟨t, ht⟩
            rw [List.cons_append] at ht
            obtain ⟨h1, h2⟩ := List.cons.inj ht
            exact ⟨h1.symm, (ih bs).mpr ⟨t, h2⟩⟩

/-- occursIn tests exactly contiguous-substring decomposition. -/
theorem occursIn_iff (as bs : List Char) :
    occursIn as bs = true ↔ ∃ s t, bs = s ++ as ++ t := by
  induction bs with
  | nil =>
      simp only [occursIn]
      constructor
      · intro h
        rw [List.isEmpty_iff] at h
        exact ⟨[], [], by rw [h]; rfl⟩
      · rintro ⟨s, t, hst⟩
        rw [List.isEmpty_iff]
        rcases List.append_eq_nil.mp (List.append_eq_nil.mp hst.symm).1 with ⟨_, h2⟩
        exact h2
  | cons b bs ih =>
      simp only [occursIn, Bool.or_eq_true]
      constructor
      · rintro (h | h)
        · obtain ⟨t, ht⟩ := (leadsWith_iff as (b :: bs)).mp h
          exact ⟨[], t, by rw [ht]; rfl⟩
        · obtain ⟨s, t, hst⟩ := ih.mp h
          exact ⟨b :: s, t, by rw [hst]; rfl⟩
      · rintro ⟨s, t, hst⟩
        cases s with
        | nil =>
            exact Or.inl ((leadsWith_iff as (b :: bs)).mpr ⟨t, by simpa using hst⟩)
        | cons c s =>
            rw [List.cons_append, List.cons_append] at hst
            obtain ⟨_, h2⟩ := List.cons.inj hst
            exact Or.inr (ih.mpr ⟨s, t, h2⟩)

/-- Claim C6 (amended): value_contains on two strings removes every space
character (U+0020 only — other whitespace such as tab is kept), lowercases
both, and returns whether the transformed first string occurs contiguously
inside the transformed second; the claimed examples hold:
value_contains("foo bar", "xfoobary") is true and value_contains("hello",
"world") is false. -/
theorem value_contains_str_amended :
    (∀ a b : String,
      value_contains (vstr a) (vstr b) = true ↔
        ∃ s t : List Char,
          (pyLower (stripSpaces b)).data = s ++ (pyLower (stripSpaces a)).data ++ t) ∧
    value_contains (vstr "foo bar") (vstr "xfoobary") = true ∧
    value_contains (vstr "hello") (vstr "world") = false := by
  refine ⟨?_, ?_, ?_⟩
  · intro a b
    simp only [value_contains]
    exact occursIn_iff _ _
  · simp [value_contains, stripSpaces, pyLower, occursIn, leadsWith]
  · simp [value_contains, stripSpaces, pyLower, occursIn, leadsWith]

/-- Claim C6 (counterexample): value_contains("a\tb", "ab") returns false
on the code although removing all whitespace (as the claim says) from both
and lowercasing would make the first a substring of the second: the code
removes only the space character, not the tab. -/
theorem value_contains_whitespace_cex :
    value_contains (vstr "a\tb") (vstr "ab") = false ∧
    occursIn (pyLower (specStripWhitespace "a\tb")).data
      (pyLower (specStripWhitespace "ab")).data = true := by
  constructor
  · simp +decide [value_contains, stripSpaces, pyLower, occursIn, leadsWith]
  · decide

mutual

/-- Nesting depth of a generic value: scalars have depth 0, a Sequence or
Mapping is one deeper than its deepest member. -/
def depth : Value → Nat
  | vlist xs => 1 + depthList xs
  | vdict xs => 1 + depthBindings xs
  | _ => 0
termination_by v => sizeOf v

/-- Greatest depth of a list of values. -/
def depthList : List Value → Nat
  | [] => 0
  | x :: xs => max (depth x) (depthList xs)
termination_by xs => sizeOf xs

/-- Greatest depth of the values of a dict. -/
def depthBindings : List (String × Value) → Nat
  | [] => 0
  | (_, v) :: xs => max (depth v) (depthBindings xs)
termination_by xs => sizeOf xs

end

mutual

/-- Fuel-instrumented value_match: every nested recursive call of the
Python function consumes one unit of fuel, and an exhausted budget yields
none (modelling stack exhaustion). -/
def valueMatchF : Nat → Value → Value → Option Bool
  | 0, _, _ => none
  | _ + 1, vstr a, vstr b => some (pyLower a == pyLower b)
  | f + 1, vlist a, vlist b =>
      (matchZipF f a b).map (fun r => r && pyEq (vlist a) (vlist b))
  | f + 1, vdict a, vdict b =>
      (matchKeysF f a b).map (fun r => r && pyEq (vdict a) (vdict b))
  | _ + 1, a, b => some (pyEq a b)
termination_by f _ _ => (f, 0)

/-- Fuel-instrumented pairwise zip loop of value_match. -/
def matchZipF : Nat → List Value → List Value → Option Bool
  | f, x :: xs, y :: ys =>
      (valueMatchF f x y).bind (fun r => (matchZipF f xs ys).map (fun m => r && m))
  | _, _, _ => some true
termination_by f xs _ => (f, xs.length + 1)

/-- Fuel-instrumented key loop of value_match. -/
def matchKeysF : Nat → List (String × Value) → List (String × Value) → Option Bool
  | _, [], _ => some true
  | f, (k, v) :: xs, ys =>
      (matchFoundF f k v ys).bind (fun r => (matchKeysF f xs ys).map (fun m => r && m))
termination_by f xs ys => (f, xs.length + ys.length + 2)

/-- Fuel-instrumented key lookup-and-match of value_match. -/
def matchFoundF : Nat → String → Value → List (String × Value) → Option Bool
  | _, _, _, [] => some false
  | f, k, v, (k2, w) :: ys =>
      if k2 == k then valueMatchF f v w else matchFoundF f k v ys
termination_by f _ _ ys => (f, ys.length + 1)

end

mutual

/-- Fuel-instrumented value_contains: every nested recursive call of the
Python function consumes one unit of fuel. -/
def valueContainsF : Nat → Value → Value → Option Bool
  | 0, _, _ => none
  | _ + 1, vstr a, vstr b =>
      some (occursIn (pyLower (stripSpaces a)).data (pyLower (stripSpaces b)).data)
  | f + 1, vlist a, vlist b =>
      (containsAllF f a b).map (fun r => r && value_match (vlist a) (vlist b))
  | f + 1, vdict a, vdict b =>
      (containsKeysF f a b).map (fun r => r && value_match (vdict a) (vdict b))
  | _ + 1, a, b => some (value_match a b)
termination_by f _ _ => (f, 0)

/-- Fuel-instrumented per-element loop of value_contains. -/
def containsAllF : Nat → List Value → List Value → Option Bool
  | _, [], _ => some true
  | f, v :: vs, b =>
      (containsAnyF f v b).bind (fun r => (containsAllF f vs b).map (fun m => r && m))
termination_by f vs b => (f, vs.length + b.length + 2)

/-- Fuel-instrumented existential search of value_contains. -/
def containsAnyF : Nat → Value → List Value → Option Bool
  | _, _, [] => some false
  | f, v, c :: cs =>
      (valueContainsF f v c).bind (fun r => (containsAnyF f v cs).map (fun m => r || m))
termination_by f _ cs => (f, cs.length + 1)

/-- Fuel-instrumented key loop of value_contains. -/
def containsKeysF : Nat → List (String × Value) → List (String × Value) → Option Bool
  | _, [], _ => some true
  | f, (k, v) :: xs, ys =>
      (containsFoundF f k v ys).bind (fun r => (containsKeysF f xs ys).map (fun m => r && m))
termination_by f xs ys => (f, xs.length + ys.length + 2)

/-- Fuel-instrumented key lookup-and-contain of value_contains. -/
def containsFoundF : Nat → String → Value → List (String × Value) → Option Bool
  | _, _, _, [] => some false
  | f, k, v, (k2, w) :: ys =>
      if k2 == k then valueContainsF f v w else containsFoundF f k v ys
termination_by f _ _ ys => (f, ys.length + 1)

end

mutual

/-- Fuel-instrumented flatten_dict item construction: every nested
recursive call of the Python function consumes one unit of fuel. -/
def flattenF : Nat → List (String × Value) → String → String → Option (List (String × Value))
  | _, [], _, _ => some []
  | 0, _ :: _, _, _ => none
  | f + 1, (k, v) :: rest, parent_key, sep =>
      let new_key := if parent_key ≠ "" then parent_key ++ sep ++ k else k
      (match v with
       | vdict d => flattenF f d new_key sep
       | vlist l => flattenSeqF f l new_key sep 0
       | other => some [(new_key, other)]).bind
        (fun head => (flattenF (f + 1) rest parent_key sep).map (fun tail => head ++ tail))
termination_by f data _ _ => (f, data.length)

/-- Fuel-instrumented sequence enumeration of flatten_dict. -/
def flattenSeqF : Nat → List Value → String → String → Nat → Option (List (String × Value))
  | _, [], _, _, _ => some []
  | f, item :: rest, new_key, sep, i =>
      (flattenF f [(new_key ++ "_" ++ toString i, item)] "" sep).bind
        (fun head => (flattenSeqF f rest new_key sep (i + 1)).map (fun tail => head ++ tail))
termination_by f l _ _ _ => (f, l.length + 2)

end

/-- With fuel exceeding the nesting depth of the first argument, the
fuelled value_match computes and agrees with value_match (stated jointly
for the four fuelled helpers). -/
theorem matchF_spec :
    (∀ (f : Nat) (a b : Value),
      depth a < f → valueMatchF f a b = some (value_match a b)) ∧
    (∀ (f : Nat) (xs ys : List (String × Value)),
      depthBindings xs < f → matchKeysF f xs ys = some (matchKeys xs ys)) ∧
    (∀ (f : Nat) (k : String) (v : Value) (ys : List (String × Value)),
      depth v < f → matchFoundF f k v ys = some (matchFound k v ys)) ∧
    (∀ (f : Nat) (xs ys : List Value),
      depthList xs < f → matchZipF f xs ys = some (matchZip xs ys)) := by
  apply valueMatchF.mutual_induct
  case case1 => intro a b h; exact absurd h (Nat.not_lt_zero _)
  case case2 => intro n a b h; simp [valueMatchF, value_match]
  case case3 =>
    intro f a b ih h
    simp only [depth] at h
    have hd : depthList a < f := by omega
    simp [valueMatchF, ih hd, value_match]
  case case4 =>
    intro f a b ih h
    simp only [depth] at h
    have hd : depthBindings a < f := by omega
    simp [valueMatchF, ih hd, value_match]
  case case5 =>
    intro n a b h1 h2 h3 h
    cases a <;> cases b <;>
      first
        | exact (h1 _ _ rfl rfl).elim
        | exact (h2 _ _ rfl rfl).elim
        | exact (h3 _ _ rfl rfl).elim
        | simp [valueMatchF, value_match]
  case case6 => intro f ys h; simp [matchKeysF, matchKeys]
  case case7 =>
    intro f k v xs ys ihF ihK h
    simp only [depthBindings] at h
    rw [Nat.max_lt] at h
    simp [matchKeysF, ihF h.1, ihK h.2, matchKeys]
  case case8 => intro f k v h; simp [matchFoundF, matchFound]
  case case9 =>
    intro f k v k2 w ys hk ih h
    simp [matchFoundF, hk, matchFound, ih h]
  case case10 =>
    intro f k v k2 w ys hk ih h
    have hk2 : (k2 == k) = false := by simpa using hk
    simp [matchFoundF, hk2, matchFound, ih h]
  case case11 =>
    intro f x xs y ys ih1 ih2 h
    simp only [depthList] at h
    rw [Nat.max_lt] at h
    simp [matchZipF, ih1 h.1, ih2 h.2, matchZip]
  case case12 =>
    intro f xs ys hex h
    cases xs <;> cases ys <;>
      first
        | exact (hex _ _ _ _ rfl rfl).elim
        | simp [matchZipF, matchZip]

/-- With fuel exceeding the nesting depth of the first argument, the
fuelled value_contains computes and agrees with value_contains (stated
jointly for the five fuelled helpers). -/
theorem containsF_spec :
    (∀ (f : Nat) (a b : Value),
      depth a < f → valueContainsF f a b = some (value_contains a b)) ∧
    (∀ (f : Nat) (xs ys : List (String × Value)),
      depthBindings xs < f → containsKeysF f xs ys = some (containsKeys xs ys)) ∧
    (∀ (f : Nat) (k : String) (v : Value) (ys : List (String × Value)),
      depth v < f → containsFoundF f k v ys = some (containsFound k v ys)) ∧
    (∀ (f : Nat) (xs ys : List Value),
      depthList xs < f → containsAllF f xs ys = some (containsAll xs ys)) ∧
    (∀ (f : Nat) (v : Value) (cs : List Value),
      depth v < f → containsAnyF f v cs = some (containsAny v cs)) := by
  apply valueContainsF.mutual_induct
  case case1 => intro a b h; exact absurd h (Nat.not_lt_zero _)
  case case2 => intro n a b h; simp [valueContainsF, value_contains]
  case case3 =>
    intro f a b ih h
    simp only [depth] at h
    have hd : depthList a < f := by omega
    simp [valueContainsF, ih hd, value_contains]
  case case4 =>
    intro f a b ih h
    simp only [depth] at h
    have hd : depthBindings a < f := by omega
    simp [valueContainsF, ih hd, value_contains]
  case case5 =>
    intro n a b h1 h2 h3 h
    cases a <;> cases b <;>
      first
        | exact (h1 _ _ rfl rfl).elim
        | exact (h2 _ _ rfl rfl).elim
        | exact (h3 _ _ rfl rfl).elim
        | simp [valueContainsF, value_contains]
  case case6 => intro f ys h; simp [containsKeysF, containsKeys]
  case case7 =>
    intro f k v xs ys ihF ihK h
    simp only [depthBindings] at h
    rw [Nat.max_lt] at h
    simp [containsKeysF, ihF h.1, ihK h.2, containsKeys]
  case case8 => intro f k v h; simp [containsFoundF, containsFound]
  case case9 =>
    intro f k v k2 w ys hk ih h
    simp [containsFoundF, hk, containsFound, ih h]
  case case10 =>
    intro f k v k2 w ys hk ih h
    have hk2 : (k2 == k) = false := by simpa using hk
    simp [containsFoundF, hk2, containsFound, ih h]
  case case11 => intro f ys h; simp [containsAllF, containsAll]
  case case12 =>
    intro f v vs b ihAny ihAll h
    simp only [depthList] at h
    rw [Nat.max_lt] at h
    simp [containsAllF, ihAny h.1, ihAll h.2, containsAll]
  case case13 => intro f v h; simp [containsAnyF, containsAny]
  case case14 =>
    intro f v c cs ihVc ihAny h
    simp [containsAnyF, ihVc h, ihAny h, containsAny]

/-- Unfolding: the fuelled flattening of an empty Mapping succeeds. -/
theorem flattenF_nil (f : Nat) (pk sep : String) : flattenF f [] pk sep = some [] := by
  cases f <;> rw [flattenF.eq_def]

/-- Unfolding: a nonempty Mapping with no fuel left fails. -/
theorem flattenF_zero (k : String) (v : Value) (rest : List (String × Value)) (pk sep : String) :
    flattenF 0 ((k, v) :: rest) pk sep = none := by
  rw [flattenF.eq_def]

/-- Unfolding: fuelled recursion into a Mapping value. -/
theorem flattenF_succ_dict (f : Nat) (k : String) (d rest : List (String × Value)) (pk sep : String) :
    flattenF (f + 1) ((k, Value.vdict d) :: rest) pk sep =
      (flattenF f d (if pk ≠ "" then pk ++ sep ++ k else k) sep).bind
        (fun head => (flattenF (f + 1) rest pk sep).map (fun tail => head ++ tail)) := by
  rw [flattenF.eq_def]

/-- Unfolding: fuelled enumeration of a Sequence value. -/
theorem flattenF_succ_list (f : Nat) (k : String) (l : List Value)
    (rest : List (String × Value)) (pk sep : String) :
    flattenF (f + 1) ((k, Value.vlist l) :: rest) pk sep =
      (flattenSeqF f l (if pk ≠ "" then pk ++ sep ++ k else k) sep 0).bind
        (fun head => (flattenF (f + 1) rest pk sep).map (fun tail => head ++ tail)) := by
  rw [flattenF.eq_def]

/-- Unfolding: fuelled emission of a Scalar value. -/
theorem flattenF_succ_scalar (f : Nat) (k : String) (v : Value)
    (rest : List (String × Value)) (pk sep : String) (h : isScalar v = true) :
    flattenF (f + 1) ((k, v) :: rest) pk sep =
      (some [((if pk ≠ "" then pk ++ sep ++ k else k), v)]).bind
        (fun head => (flattenF (f + 1) rest pk sep).map (fun tail => head ++ tail)) := by
  cases v <;> first
    | exact Bool.noConfusion h
    | rw [flattenF.eq_def]

/-- Unfolding: the fuelled enumeration of an empty Sequence succeeds. -/
theorem flattenSeqF_nil (f : Nat) (nk sep : String) (i : Nat) :
    flattenSeqF f [] nk sep i = some [] := by
  rw [flattenSeqF.eq_def]

/-- Unfolding: each Sequence element spends one unit of fuel on its
singleton Mapping. -/
theorem flattenSeqF_cons (f : Nat) (item : Value) (rest : List Value)
    (nk sep : String) (i : Nat) :
    flattenSeqF f (item :: rest) nk sep i =
      (flattenF f [(nk ++ "_" ++ toString i, item)] "" sep).bind
        (fun head => (flattenSeqF f rest nk sep (i + 1)).map (fun tail => head ++ tail)) := by
  rw [flattenSeqF.eq_def]

/-- With fuel exceeding the nesting depth of the input, the fuelled
flattening computes and agrees with the item construction of flatten_dict
(stated jointly for the two fuelled helpers). -/
theorem flattenF_spec :
    (∀ (f : Nat) (data : List (String × Value)) (pk sep : String),
      depthBindings data < f → flattenF f data pk sep = some (flattenItems data pk sep)) ∧
    (∀ (f : Nat) (l : List Value) (nk sep : String) (i : Nat),
      depthList l < f → flattenSeqF f l nk sep i = some (flattenSeq l nk sep i)) := by
  apply flattenF.mutual_induct
  case case1 => intro f pk sep h; rw [flattenF_nil, flattenItems_nil]
  case case2 => intro p rest pk sep h; exact absurd h (Nat.not_lt_zero _)
  case case3 =>
    intro f k v rest pk sep nk ihd ihl ihrest h
    simp only [depthBindings] at h
    rw [Nat.max_lt] at h
    have hrest := ihrest h.2
    cases v with
    | vdict d =>
        have hd : depthBindings d < f := by
          have h1 := h.1
          simp only [depth] at h1
          omega
        rw [flattenF_succ_dict, flattenItems_cons_dict,
          show (if pk ≠ "" then pk ++ sep ++ k else k) = nk from rfl, ihd d hd, hrest]
        rfl
    | vlist l =>
        have hl : depthList l < f := by
          have h1 := h.1
          simp only [depth] at h1
          omega
        rw [flattenF_succ_list, flattenItems_cons_list,
          show (if pk ≠ "" then pk ++ sep ++ k else k) = nk from rfl, ihl l hl, hrest]
        rfl
    | vint m =>
        rw [flattenF_succ_scalar f k (Value.vint m) rest pk sep rfl,
          flattenItems_cons_scalar k (Value.vint m) rest pk sep rfl, hrest]
        rfl
    | vstr s =>
        rw [flattenF_succ_scalar f k (Value.vstr s) rest pk sep rfl,
          flattenItems_cons_scalar k (Value.vstr s) rest pk sep rfl, hrest]
        rfl
    | vbool b =>
        rw [flattenF_succ_scalar f k (Value.vbool b) rest pk sep rfl,
          flattenItems_cons_scalar k (Value.vbool b) rest pk sep rfl, hrest]
        rfl
    | vnone =>
        rw [flattenF_succ_scalar f k Value.vnone rest pk sep rfl,
          flattenItems_cons_scalar k Value.vnone rest pk sep rfl, hrest]
        rfl
  case case4 => intro f nk sep i h; rw [flattenSeqF_nil, flattenSeq_nil]
  case case5 =>
    intro f item rest nk sep i ih1 ih2 h
    simp only [depthList] at h
    rw [Nat.max_lt] at h
    have h1 : depthBindings [(nk ++ "_" ++ toString i, item)] < f := by
      simp only [depthBindings]
      rw [Nat.max_zero]
      exact h.1
    rw [flattenSeqF_cons, ih1 h1, ih2 h.2, flattenSeq_cons]
    rfl

/-- Claim C9: flatten_dict, value_match and value_contains are total on
every finite acyclic generic structured value — the embedded functions
always return a result — with recursion depth bounded by the input's
nesting depth: each fuel-instrumented version, in which every nested
recursive call consumes one unit of fuel, succeeds (returns some) and
agrees with the plain function as soon as the fuel budget exceeds the
nesting depth of the driving argument. -/
theorem utils_total_depth_bound (fuel : Nat) (a b : Value)
    (data : List (String × Value)) (pk sep : String) :
    (depth a < fuel → valueMatchF fuel a b = some (value_match a b)) ∧
    (depth a < fuel → valueContainsF fuel a b = some (value_contains a b)) ∧
    (depthBindings data < fuel →
      flattenF fuel data pk sep = some (flattenItems data pk sep)) :=
  ⟨fun h => matchF_spec.1 fuel a b h,
   fun h => containsF_spec.1 fuel a b h,
   fun h => flattenF_spec.1 fuel data pk sep h⟩

/-- Witness for C9 at fuel 1 on depth-0 inputs. -/
theorem utils_total_depth_bound_witness :
    valueMatchF 1 (vint 3) (vint 3) = some (value_match (vint 3) (vint 3)) ∧
    valueContainsF 1 (vint 3) (vint 3) = some (value_contains (vint 3) (vint 3)) ∧
    flattenF 1 [("a", vint 3)] "" "_" = some (flattenItems [("a", vint 3)] "" "_") :=
  ⟨(utils_total_depth_bound 1 (vint 3) (vint 3) [("a", vint 3)] "" "_").1
      (by simp [depth]),
   (utils_total_depth_bound 1 (vint 3) (vint 3) [("a", vint 3)] "" "_").2.1
      (by simp [depth]),
   (utils_total_depth_bound 1 (vint 3) (vint 3) [("a", vint 3)] "" "_").2.2
      (by simp [depthBindings, depth])⟩
